import Mathlib

/-!
Shallow embedding of the swarm-control core of the repository:
`PointDistributor` and `APFSwarmController` from `src/swarm_controller.py`,
and `LLMAirSimSwarmController._assign_nearest_unique` together with the
predictive collision damping of `start_mission` from
`src/integrated_controller.py`.  Machine floats are modelled as real
numbers; numpy arrays of shape `(N, 3)` are modelled as `List Vec3`.
-/

open scoped Classical

noncomputable section

namespace Swarm

/-- One row of an `(N, 3)` numpy array: a 3-component vector. -/
structure Vec3 where
  x : ℝ
  y : ℝ
  z : ℝ

instance : Zero Vec3 := ⟨⟨0, 0, 0⟩⟩

instance : Add Vec3 := ⟨fun a b => ⟨a.x + b.x, a.y + b.y, a.z + b.z⟩⟩

instance : Sub Vec3 := ⟨fun a b => ⟨a.x - b.x, a.y - b.y, a.z - b.z⟩⟩

instance : SMul ℝ Vec3 := ⟨fun c v => ⟨c * v.x, c * v.y, c * v.z⟩⟩

@[simp] theorem zero_mk : (0 : Vec3) = ⟨0, 0, 0⟩ := rfl

@[simp] theorem mk_add_mk (a b c d e f : ℝ) :
    (⟨a, b, c⟩ + ⟨d, e, f⟩ : Vec3) = ⟨a + d, b + e, c + f⟩ := rfl

@[simp] theorem mk_sub_mk (a b c d e f : ℝ) :
    (⟨a, b, c⟩ - ⟨d, e, f⟩ : Vec3) = ⟨a - d, b - e, c - f⟩ := rfl

@[simp] theorem smul_mk (k a b c : ℝ) :
    (k • (⟨a, b, c⟩ : Vec3)) = ⟨k * a, k * b, k * c⟩ := rfl

/-- Squared Euclidean norm of a row. -/
def normSq (v : Vec3) : ℝ := v.x ^ 2 + v.y ^ 2 + v.z ^ 2

/-- `np.linalg.norm` of one row. -/
def norm3 (v : Vec3) : ℝ := Real.sqrt (normSq v)

/-- Full 3D Euclidean distance between two rows. -/
def dist3 (a b : Vec3) : ℝ := norm3 (a - b)

/-- Horizontal (XY-plane) distance between two rows, as used by
`np.linalg.norm(... [:, :2] ..., axis=2)` in `integrated_controller.py`. -/
def distXY (a b : Vec3) : ℝ := Real.sqrt ((a.x - b.x) ^ 2 + (a.y - b.y) ^ 2)

/-! ## `APFSwarmController` (src/swarm_controller.py, lines 238-366) -/

/-- Constructor parameters of `APFSwarmController`. -/
structure APFParams where
  p_cohesion : ℝ
  p_separation : ℝ
  p_alignment : ℝ
  max_vel : ℝ
  min_dist : ℝ

/-- Per-row velocity clamping: `if vel_mag > max_vel: v = max_vel * v / vel_mag`. -/
def clampToMax (maxVel : ℝ) (v : Vec3) : Vec3 :=
  if maxVel < norm3 v then (maxVel / norm3 v) • v else v

/-- The separation (repulsion) term for agent `i` in
`APFSwarmController.get_control` (lines 325-355).  `push i j` stands for the
value drawn by `np.random.randn(3) * 0.1` for the nearly-coincident pair
`(i, j)`; the claims hold for every such draw. -/
def sepTerm (P : APFParams) (poses : List Vec3) (push : ℕ → ℕ → Vec3)
    (i : ℕ) (gi : Vec3) : Vec3 :=
  let pi' := poses.getD i 0
  let rep :=
    ((List.range poses.length).filter (fun j => j ≠ i)).foldl
      (fun acc j =>
        let pj := poses.getD j 0
        let d := dist3 pi' pj
        if d < 1e-6 then acc + push i j
        else if d < P.min_dist then
          acc + (((P.min_dist - d) / (d + 1e-6)) / d) • (pi' - pj)
        else acc)
      0
  let repAtt : Vec3 := ⟨rep.x, rep.y, 0.3 * rep.z⟩
  let sepScale := max 0.2 (min 1 (dist3 gi pi' / 1))
  (P.p_separation * sepScale) • repAtt

/-- One output row of `APFSwarmController.get_control`: cohesion clamped to
`max_vel`, plus separation, and a final clamp to `max_vel`. -/
def controlRow (P : APFParams) (goals poses : List Vec3) (push : ℕ → ℕ → Vec3)
    (i : ℕ) : Vec3 :=
  let gi := goals.getD i 0
  let pi' := poses.getD i 0
  let vc := clampToMax P.max_vel (P.p_cohesion • (gi - pi'))
  let vs := sepTerm P poses push i gi
  clampToMax P.max_vel (vc + vs)

/-- Model of `APFSwarmController.get_control` (lines 300-366).  `goals` is the mutable
field `self.goals` (`none` models Python `None`); `push` models the random
perturbation source. -/
def get_control (P : APFParams) (goals : Option (List Vec3))
    (push : ℕ → ℕ → Vec3) (poses : List Vec3) : List Vec3 :=
  match goals with
  | none => List.replicate poses.length 0
  | some gs =>
    if gs.length = 0 then List.replicate poses.length 0
    else (List.range poses.length).map (controlRow P gs poses push)

/-! ## `APFSwarmController.distribute_goals` (lines 269-298)

The numpy code marks consumed rows/columns of the distance matrix with
`np.inf`; consumed columns are modelled by a `Finset ℕ` and `np.inf` by
`(⊤ : EReal)`.  A row of the matrix once some columns are consumed is
`infRow`. -/

/-- Helper for `np.argmin`: scan the remaining entries keeping the best
`(index, value)` pair; a strictly smaller entry replaces the best, so the
first minimum wins, as in numpy. -/
def argminAux : List EReal → ℕ → ℕ × EReal → ℕ × EReal
  | [], _, best => best
  | a :: t, i, best => argminAux t (i + 1) (if a < best.2 then (i, a) else best)

/-- Model of `np.argmin` over a list of extended reals: index of the first minimal
entry (`0` on the empty list, which numpy rejects). -/
def argminL : List EReal → ℕ
  | [] => 0
  | a :: t => (argminAux t 1 (0, a)).1

/-- Row `i` of the mutated distance matrix `dist_arr` in
`distribute_goals`, after the goal columns in `used` have been overwritten
with `np.inf`: entry `j` is `np.inf` (`⊤`) if column `j` was consumed, and
the `cdist` 3D distance to goal `j` otherwise. -/
def infRow (p : Vec3) (gs : List Vec3) (used : Finset ℕ) : List EReal :=
  (List.range gs.length).map fun j =>
    if j ∈ used then (⊤ : EReal) else ((dist3 p (gs.getD j 0) : ℝ) : EReal)

/-- The greedy assignment loop of `distribute_goals` (lines 288-295): agents
are visited in index order; an agent takes the goal at the `argmin` of its
mutated distance row if a finite entry remains, else keeps its own position. -/
def dgLoop (gs : List Vec3) : List Vec3 → Finset ℕ → List Vec3
  | [], _ => []
  | p :: rest, used =>
    if ∃ e ∈ infRow p gs used, e < (⊤ : EReal) then
      gs.getD (argminL (infRow p gs used)) 0 ::
        dgLoop gs rest (insert (argminL (infRow p gs used)) used)
    else
      p :: dgLoop gs rest used

/-- Model of `APFSwarmController.distribute_goals` (lines 269-298). -/
def distribute_goals (poses gs : List Vec3) : List Vec3 :=
  if gs.length = 0 then List.replicate poses.length 0
  else dgLoop gs poses ∅

/-! ## `LLMAirSimSwarmController._assign_nearest_unique`
(src/integrated_controller.py, lines 358-416)

Python's stable `sorted(..., key=...)` and `np.argsort` are modelled with
Mathlib's (stable) insertion sort under the key-induced total preorder. -/

/-- Comparison of indices by a real-valued key. -/
def keyLe (key : ℕ → ℝ) (a b : ℕ) : Prop := key a ≤ key b

instance keyLe_isTotal (key : ℕ → ℝ) : IsTotal ℕ (keyLe key) :=
  ⟨fun a b => le_total (key a) (key b)⟩

instance keyLe_isTrans (key : ℕ → ℝ) : IsTrans ℕ (keyLe key) :=
  ⟨fun _ _ _ => le_trans⟩

/-- Row minimum `min_dists[i] = dists[i].min()` over goal columns `0 .. m-1`
(`np.min` along axis 1; meaningful for `m ≥ 1`). -/
def rowMin (row : ℕ → ℝ) : ℕ → ℝ
  | 0 => row 0
  | m + 1 => min (rowMin row m) (row m)

/-- Model of `drone_order = np.argsort(-min_dists)`: drone indices sorted ascending
by negated nearest-goal distance, i.e. farthest-first. -/
def droneOrder (dists : ℕ → ℕ → ℝ) (n m : ℕ) : List ℕ :=
  List.insertionSort (keyLe fun i => -(rowMin (dists i) m)) (List.range n)

/-- Model of `sorted_goals = sorted(range(n_goals), key=lambda g: dists[di, g])`. -/
def sortedGoals (row : ℕ → ℝ) (m : ℕ) : List ℕ :=
  List.insertionSort (keyLe row) (List.range m)

/-- The body picking a goal for drone `di` (lines 398-411): with duplicates
allowed, the nearest goal overall; otherwise the first unassigned goal in
ascending-distance order, falling back to the nearest overall. -/
def pickGoal (row : ℕ → ℝ) (m : ℕ) (assigned : Finset ℕ) (allowDup : Bool) : ℕ :=
  if allowDup then (sortedGoals row m).headD 0
  else
    match (sortedGoals row m).find? (fun g => decide (g ∉ assigned)) with
    | some g => g
    | none => (sortedGoals row m).headD 0

/-- The assignment loop over `drone_order` (lines 397-414), returning the
`(drone index, goal index)` pairs in processing order. -/
def assignLoop (dists : ℕ → ℕ → ℝ) (m : ℕ) (allowDup : Bool) :
    List ℕ → Finset ℕ → List (ℕ × ℕ)
  | [], _ => []
  | di :: rest, assigned =>
    (di, pickGoal (dists di) m assigned allowDup) ::
      assignLoop dists m allowDup rest
        (insert (pickGoal (dists di) m assigned allowDup) assigned)

/-- The `drones × goals` XY-plane distance matrix (line 384). -/
def nearestUniqueDists (positions goals : List Vec3) : ℕ → ℕ → ℝ :=
  fun i j => distXY (positions.getD i 0) (goals.getD j 0)

/-- Model of `LLMAirSimSwarmController._assign_nearest_unique`, with drones named by
their index. -/
def assign_nearest_unique (positions goals : List Vec3) : List (ℕ × ℕ) :=
  assignLoop (nearestUniqueDists positions goals) goals.length
    (decide (goals.length < positions.length))
    (droneOrder (nearestUniqueDists positions goals) positions.length
      goals.length) ∅

/-- Goal indices already claimed before step `k` of the loop. -/
def claimedBefore (l : List (ℕ × ℕ)) (k : ℕ) : Finset ℕ :=
  ((l.take k).map Prod.snd).toFinset

/-! ## Predictive collision damping in `start_mission`
(src/integrated_controller.py, lines 515-531) -/

/-- Predicted positions `pred_pos = current_positions + vels * dt` (line 516). -/
def predictedPos (dt : ℝ) (pos vels : List Vec3) (i : ℕ) : Vec3 :=
  pos.getD i 0 + dt • vels.getD i 0

/-- Entry `(i, j)` of `conflict_mask` after the diagonal is zeroed: the
pairwise predicted distance is taken in the XY plane
(`pred_pos[:, None, :2]`). -/
def conflictPair (minDist dt : ℝ) (pos vels : List Vec3) (i j : ℕ) : Prop :=
  i ≠ j ∧
    distXY (predictedPos dt pos vels i) (predictedPos dt pos vels j)
      < max 0.5 minDist

/-- The damping step: every agent appearing in some conflicting pair (as
either component of an `np.argwhere` pair) has its velocity halved once;
all other velocities pass through unchanged. -/
def predictiveDamp (minDist dt : ℝ) (pos vels : List Vec3) : List Vec3 :=
  (List.range pos.length).map fun i =>
    if ∃ j, j < pos.length ∧
        (conflictPair minDist dt pos vels i j ∨
          conflictPair minDist dt pos vels j i)
    then (0.5 : ℝ) • vels.getD i 0
    else vels.getD i 0

/-! ## `PointDistributor.generate_points` and `_fallback_circle_points`
(src/swarm_controller.py, lines 135-235)

The random candidate draw (`np.random.uniform`) is a parameter `samples`;
the estimated bounds are the constructor state `bmin`/`bmax`.  The two
external library calls are parameters with their documented contracts as
hypotheses: `km` models `KMeans(n_clusters=k).fit(pts).cluster_centers_`
(sklearn raises for `k < 1` or more clusters than samples, else returns `k`
centers), and `minr` models the `scipy.optimize.minimize` block — `some out`
when it returns a same-shape `res.x` that is accepted, `none` when it
raises or fails the acceptance test (in which case the cluster centers are
kept). -/

/-- Horizontal radius of a point, `np.linalg.norm(points[:, :2], axis=1)`. -/
def xyRad (p : Vec3) : ℝ := Real.sqrt (p.x ^ 2 + p.y ^ 2)

/-- Circle radius of the fallback: half the larger XY span of the bounds,
or `1.0` when that is not positive (lines 226-229). -/
def circleRadius (bmin bmax : Vec3) : ℝ :=
  if max (bmax.x - bmin.x) (bmax.y - bmin.y) / 2 ≤ 0 then 1
  else max (bmax.x - bmin.x) (bmax.y - bmin.y) / 2

/-- Model of `PointDistributor._fallback_circle_points` (lines 219-235): `num_points`
points at angles `2πk/num_points` on the circle of radius `circleRadius`
about the XY origin, at the mid-height of the bounds. -/
def fallback_circle_points (bmin bmax : Vec3) (num_points : ℕ) : List Vec3 :=
  (List.range num_points).map fun (k : ℕ) =>
    ⟨circleRadius bmin bmax * Real.cos (2 * Real.pi * k / num_points),
     circleRadius bmin bmax * Real.sin (2 * Real.pi * k / num_points),
     (bmin.z + bmax.z) / 2⟩

/-- The candidate set reaching the clustering stage (lines 153-181): filter
to `|sdf| ≤ 0.1`, then for thin shapes (z-span `≤ 0.5`) keep the outer rim
(radius `≥ 0.75 · rmax`) if it still holds at least `2·num_points` points. -/
def filteredCandidates (sdf : Vec3 → ℝ) (bmin bmax : Vec3)
    (samples : List Vec3) (num_points : ℤ) : List Vec3 :=
  let pts1 := samples.filter fun p => |sdf p| ≤ 0.1
  if pts1.length ≠ 0 ∧ bmax.z - bmin.z ≤ 0.5 then
    let rmax := pts1.foldr (fun p acc => max (xyRad p) acc) 0
    let rim := pts1.filter fun p => 0.75 * rmax ≤ xyRad p
    if num_points * 2 ≤ (rim.length : ℤ) then rim else pts1
  else pts1

/-- Model of `PointDistributor.generate_points` (lines 135-217): circle fallback when
fewer than `2·num_points` candidates survive, else k-means clustering into
`num_points` centers followed by the bounded refinement. -/
def generate_points (sdf : Vec3 → ℝ) (bmin bmax : Vec3) (samples : List Vec3)
    (km : ℤ → List Vec3 → Except Unit (List Vec3))
    (minr : List Vec3 → Option (List Vec3)) (num_points : ℤ) :
    Except Unit (List Vec3) :=
  if ((filteredCandidates sdf bmin bmax samples num_points).length : ℤ)
      < num_points * 2 then
    Except.ok (fallback_circle_points bmin bmax num_points.toNat)
  else
    match km num_points (filteredCandidates sdf bmin bmax samples num_points) with
    | Except.error e => Except.error e
    | Except.ok centers =>
      Except.ok
        (match minr centers with
          | some out => out
          | none => centers)

@[simp] theorem zero_x : (0 : Vec3).x = 0 := rfl

@[simp] theorem zero_y : (0 : Vec3).y = 0 := rfl

@[simp] theorem zero_z : (0 : Vec3).z = 0 := rfl

@[simp] theorem add_x (a b : Vec3) : (a + b).x = a.x + b.x := rfl

@[simp] theorem add_y (a b : Vec3) : (a + b).y = a.y + b.y := rfl

@[simp] theorem add_z (a b : Vec3) : (a + b).z = a.z + b.z := rfl

@[simp] theorem sub_x (a b : Vec3) : (a - b).x = a.x - b.x := rfl

@[simp] theorem sub_y (a b : Vec3) : (a - b).y = a.y - b.y := rfl

@[simp] theorem sub_z (a b : Vec3) : (a - b).z = a.z - b.z := rfl

@[simp] theorem smul_x (c : ℝ) (v : Vec3) : (c • v).x = c * v.x := rfl

@[simp] theorem smul_y (c : ℝ) (v : Vec3) : (c • v).y = c * v.y := rfl

@[simp] theorem smul_z (c : ℝ) (v : Vec3) : (c • v).z = c * v.z := rfl

theorem Vec3.ext' {a b : Vec3} (hx : a.x = b.x) (hy : a.y = b.y) (hz : a.z = b.z) :
    a = b := by
  cases a; cases b; simp_all

theorem normSq_nonneg (v : Vec3) : 0 ≤ normSq v := by
  unfold normSq; positivity

theorem norm3_nonneg (v : Vec3) : 0 ≤ norm3 v := Real.sqrt_nonneg _

@[simp] theorem norm3_zero : norm3 0 = 0 := by
  unfold norm3 normSq; simp

theorem normSq_smul (c : ℝ) (v : Vec3) : normSq (c • v) = c ^ 2 * normSq v := by
  unfold normSq; simp; ring

theorem norm3_smul (c : ℝ) (v : Vec3) : norm3 (c • v) = |c| * norm3 v := by
  unfold norm3
  rw [normSq_smul, Real.sqrt_mul (sq_nonneg c), Real.sqrt_sq_eq_abs]

/-- Norm of a vector supported on the x-axis. -/
theorem norm3_xaxis (a : ℝ) : norm3 ⟨a, 0, 0⟩ = |a| := by
  unfold norm3 normSq
  simp [Real.sqrt_sq_eq_abs]

theorem distXY_comm (a b : Vec3) : distXY a b = distXY b a := by
  unfold distXY
  ring_nf

theorem norm3_clampToMax_le (maxVel : ℝ) (v : Vec3) (h : 0 ≤ maxVel) :
    norm3 (clampToMax maxVel v) ≤ maxVel := by
  unfold clampToMax
  split
  · rename_i hlt
    have hv : 0 < norm3 v := lt_of_le_of_lt h hlt
    rw [norm3_smul, abs_of_nonneg (div_nonneg h hv.le)]
    exact le_of_eq (div_mul_cancel₀ maxVel hv.ne')
  · rename_i hle
    exact le_of_not_lt hle

/-- C1 (amended): provided the configured `max_vel` is nonnegative, every row
of the velocity array returned by `APFSwarmController.get_control` has
Euclidean magnitude at most `max_vel`, for all positions, goals, and random
perturbations. -/
theorem C1_clamped_speed_bound (P : APFParams) (goals : Option (List Vec3))
    (push : ℕ → ℕ → Vec3) (poses : List Vec3) (h : 0 ≤ P.max_vel) :
    ∀ v ∈ get_control P goals push poses, norm3 v ≤ P.max_vel := by
  intro v hv
  unfold get_control at hv
  match goals with
  | none =>
    simp only at hv
    rw [List.eq_of_mem_replicate hv, norm3_zero]
    exact h
  | some gs =>
    simp only at hv
    by_cases hlen : gs.length = 0
    · rw [if_pos hlen] at hv
      rw [List.eq_of_mem_replicate hv, norm3_zero]
      exact h
    · rw [if_neg hlen] at hv
      rcases List.mem_map.1 hv with ⟨i, _, rfl⟩
      unfold controlRow
      exact norm3_clampToMax_le _ _ h

/-- Witness for C1: a concrete single-agent instance with `max_vel = 1`. -/
theorem C1_clamped_speed_bound_witness :
    (0 : ℝ) ≤ 1 ∧
      ∀ v ∈ get_control ⟨2, 1, 1, 1, 2⟩ (some [⟨0, 0, 0⟩]) (fun _ _ => 0)
          [⟨0, 0, 0⟩], norm3 v ≤ (1 : ℝ) :=
  ⟨zero_le_one,
    C1_clamped_speed_bound ⟨2, 1, 1, 1, 2⟩ (some [⟨0, 0, 0⟩]) (fun _ _ => 0)
      [⟨0, 0, 0⟩] zero_le_one⟩

/-- Value of `get_control` at the C1 counterexample input. -/
theorem get_control_neg_maxvel_eval :
    get_control ⟨2, 1, 1, -1, 2⟩ (some [⟨1, 0, 0⟩]) (fun _ _ => 0) [⟨0, 0, 0⟩]
      = [⟨1, 0, 0⟩] := by
  have h2 : norm3 ⟨2, 0, 0⟩ = 2 := by rw [norm3_xaxis]; norm_num
  have hm1 : norm3 ⟨-1, 0, 0⟩ = 1 := by rw [norm3_xaxis]; norm_num
  unfold get_control controlRow sepTerm clampToMax
  norm_num [List.range_succ, h2, hm1]

/-- C1 counterexample: with `max_vel = -1` (the claim quantifies over any
controller parameters), the returned row has magnitude `1 > max_vel`. -/
theorem C1_counterexample :
    ∃ v ∈ get_control ⟨2, 1, 1, -1, 2⟩ (some [⟨1, 0, 0⟩]) (fun _ _ => 0)
        [⟨0, 0, 0⟩],
      ¬ norm3 v ≤ (⟨2, 1, 1, -1, 2⟩ : APFParams).max_vel := by
  refine ⟨⟨1, 0, 0⟩, ?_, ?_⟩
  · rw [get_control_neg_maxvel_eval]; exact List.mem_singleton_self _
  · rw [norm3_xaxis]
    norm_num

/-- C9: with no configured goals (`self.goals` is `None` or empty),
`APFSwarmController.get_control` returns an all-zero velocity array of the
same length as the positions input, without any error. -/
theorem C9_no_goals_zero_velocities (P : APFParams) (push : ℕ → ℕ → Vec3)
    (poses : List Vec3) :
    get_control P none push poses = List.replicate poses.length 0 ∧
      ∀ gs : List Vec3, gs.length = 0 →
        get_control P (some gs) push poses = List.replicate poses.length 0 := by
  constructor
  · rfl
  · intro gs h
    simp [get_control, h]

/-- Witness for C9 at a concrete position list. -/
theorem C9_no_goals_zero_velocities_witness :
    get_control ⟨2, 1, 1, 1, 2⟩ none (fun _ _ => 0) [⟨5, 5, 5⟩]
        = List.replicate 1 0 ∧
      get_control ⟨2, 1, 1, 1, 2⟩ (some []) (fun _ _ => 0) [⟨5, 5, 5⟩]
        = List.replicate 1 0 := by
  have h := C9_no_goals_zero_velocities ⟨2, 1, 1, 1, 2⟩ (fun _ _ => 0) [⟨5, 5, 5⟩]
  exact ⟨h.1, h.2 [] rfl⟩

theorem argminAux_spec (t : List EReal) : ∀ (i : ℕ) (best : ℕ × EReal),
    (argminAux t i best = best ∨
      ∃ k, k < t.length ∧ (argminAux t i best).1 = i + k ∧
        (argminAux t i best).2 = t.getD k ⊤) ∧
    (argminAux t i best).2 ≤ best.2 ∧
    ∀ x ∈ t, (argminAux t i best).2 ≤ x := by
  induction t with
  | nil =>
    intro i best
    refine ⟨Or.inl rfl, le_refl _, ?_⟩
    intro x hx
    exact absurd hx (List.not_mem_nil x)
  | cons a t' ih =>
    intro i best
    have hstep : argminAux (a :: t') i best
        = argminAux t' (i + 1) (if a < best.2 then (i, a) else best) := rfl
    obtain ⟨hloc, hle, hall⟩ := ih (i + 1) (if a < best.2 then (i, a) else best)
    have hbest2 : (if a < best.2 then (i, a) else best).2 ≤ best.2 := by
      by_cases hc : a < best.2
      · rw [if_pos hc]; exact le_of_lt hc
      · rw [if_neg hc]
    have hbest2a : (if a < best.2 then (i, a) else best).2 ≤ a := by
      by_cases hc : a < best.2
      · rw [if_pos hc]
      · rw [if_neg hc]; exact le_of_not_lt hc
    refine ⟨?_, ?_, ?_⟩
    · rcases hloc with hsame | ⟨k, hk, h1, h2⟩
      · by_cases hc : a < best.2
        · right
          refine ⟨0, Nat.succ_pos _, ?_, ?_⟩
          · rw [hstep, hsame, if_pos hc]; simp
          · rw [hstep, hsame, if_pos hc]; simp [List.getD]
        · left
          rw [hstep, hsame, if_neg hc]
      · right
        refine ⟨k + 1, by simp only [List.length_cons]; omega, ?_, ?_⟩
        · rw [hstep, h1]; omega
        · rw [hstep, h2]; rfl
    · rw [hstep]; exact le_trans hle hbest2
    · intro x hx
      rcases List.mem_cons.1 hx with rfl | hx'
      · rw [hstep]; exact le_trans hle hbest2a
      · rw [hstep]; exact hall x hx'

theorem argminL_lt_length (l : List EReal) (hne : l ≠ []) :
    argminL l < l.length := by
  match l, hne with
  | a :: t, _ =>
    obtain ⟨hloc, -, -⟩ := argminAux_spec t 1 (0, a)
    rcases hloc with hsame | ⟨k, hk, h1, -⟩
    · show (argminAux t 1 (0, a)).1 < _
      rw [hsame]
      exact Nat.succ_pos _
    · show (argminAux t 1 (0, a)).1 < _
      rw [h1]
      simp only [List.length_cons]
      omega

theorem argminL_min (l : List EReal) (hne : l ≠ []) :
    ∀ x ∈ l, l.getD (argminL l) ⊤ ≤ x := by
  match l, hne with
  | a :: t, _ =>
    obtain ⟨hloc, hle, hall⟩ := argminAux_spec t 1 (0, a)
    have hval : (a :: t).getD (argminL (a :: t)) ⊤ = (argminAux t 1 (0, a)).2 := by
      rcases hloc with hsame | ⟨k, hk, h1, h2⟩
      · show (a :: t).getD (argminAux t 1 (0, a)).1 ⊤ = _
        rw [hsame]
        simp [List.getD]
      · show (a :: t).getD (argminAux t 1 (0, a)).1 ⊤ = _
        rw [h1, h2, Nat.add_comm 1 k]
        show (a :: t).getD (k + 1) ⊤ = t.getD k ⊤
        simp [List.getD]
    intro x hx
    rw [hval]
    rcases List.mem_cons.1 hx with rfl | hx'
    · exact hle
    · exact hall x hx'

theorem infRow_length (p : Vec3) (gs : List Vec3) (used : Finset ℕ) :
    (infRow p gs used).length = gs.length := by
  simp [infRow]

theorem infRow_getD (p : Vec3) (gs : List Vec3) (used : Finset ℕ) (j : ℕ)
    (hj : j < gs.length) :
    (infRow p gs used).getD j ⊤ =
      if j ∈ used then (⊤ : EReal) else ((dist3 p (gs.getD j 0) : ℝ) : EReal) := by
  unfold infRow
  rw [List.getD_eq_getElem?_getD]
  rw [List.getElem?_map]
  rw [List.getElem?_range hj]
  rfl

/-- Condition `np.any(dist_arr[i] < np.inf)` holds exactly when some goal column is
still unconsumed. -/
theorem infRow_exists_lt_top (p : Vec3) (gs : List Vec3) (used : Finset ℕ) :
    (∃ e ∈ infRow p gs used, e < (⊤ : EReal)) ↔
      ∃ j, j < gs.length ∧ j ∉ used := by
  constructor
  · rintro ⟨e, he, hlt⟩
    rcases List.mem_map.1 he with ⟨j, hj, rfl⟩
    have hjm : j < gs.length := List.mem_range.1 hj
    by_cases hu : j ∈ used
    · rw [if_pos hu] at hlt
      exact absurd hlt (lt_irrefl _)
    · exact ⟨j, hjm, hu⟩
  · rintro ⟨j, hj, hu⟩
    refine ⟨((dist3 p (gs.getD j 0) : ℝ) : EReal), ?_, EReal.coe_lt_top _⟩
    refine List.mem_map.2 ⟨j, List.mem_range.2 hj, ?_⟩
    rw [if_neg hu]

/-- When an unconsumed column exists, `np.argmin` over the row returns an
unconsumed in-range column (the minimal finite entry beats every `np.inf`). -/
theorem infRow_argmin_pick (p : Vec3) (gs : List Vec3) (used : Finset ℕ)
    (h : ∃ j, j < gs.length ∧ j ∉ used) :
    argminL (infRow p gs used) < gs.length ∧
      argminL (infRow p gs used) ∉ used := by
  obtain ⟨j, hj, hu⟩ := h
  have hne : infRow p gs used ≠ [] := by
    have : (infRow p gs used).length ≠ 0 := by
      rw [infRow_length]; omega
    exact fun hnil => this (by rw [hnil]; rfl)
  have hlt : argminL (infRow p gs used) < gs.length := by
    have := argminL_lt_length _ hne
    rwa [infRow_length] at this
  refine ⟨hlt, ?_⟩
  have hj' : j < (infRow p gs used).length := by
    rw [infRow_length]; exact hj
  have hmem : (infRow p gs used).getD j ⊤ ∈ infRow p gs used := by
    simp only [List.getD_eq_getElem?_getD, List.getElem?_eq_getElem hj',
      Option.getD_some]
    exact List.getElem_mem hj'
  have hmin := argminL_min _ hne _ hmem
  rw [infRow_getD p gs used j hj, if_neg hu] at hmin
  have hlt_top : (infRow p gs used).getD (argminL (infRow p gs used)) ⊤
      < (⊤ : EReal) :=
    lt_of_le_of_lt hmin (EReal.coe_lt_top _)
  intro hcontra
  rw [infRow_getD p gs used _ hlt, if_pos hcontra] at hlt_top
  exact absurd hlt_top (lt_irrefl _)

theorem dgLoop_length (gs : List Vec3) :
    ∀ (rest : List Vec3) (used : Finset ℕ),
      (dgLoop gs rest used).length = rest.length := by
  intro rest
  induction rest with
  | nil => intro used; rfl
  | cons p t ih =>
    intro used
    unfold dgLoop
    split
    · simp [ih]
    · simp [ih]

/-- Once at least `used.card + i ≥ m` goals are consumed before an agent's
turn, that agent keeps its own position (its whole distance row is
`np.inf`). -/
theorem dgLoop_stay (gs : List Vec3) :
    ∀ (rest : List Vec3) (used : Finset ℕ),
      used ⊆ Finset.range gs.length →
      ∀ i, i < rest.length → gs.length ≤ used.card + i →
        (dgLoop gs rest used).getD i 0 = rest.getD i 0 := by
  intro rest
  induction rest with
  | nil =>
    intro used _ i hi
    exact absurd hi (by simp)
  | cons p t ih =>
    intro used hsub i hi hcard
    by_cases hcond : ∃ e ∈ infRow p gs used, e < (⊤ : EReal)
    · have hpick := infRow_argmin_pick p gs used
        ((infRow_exists_lt_top p gs used).1 hcond)
      rw [dgLoop, if_pos hcond]
      match i with
      | 0 =>
        exfalso
        have hle : gs.length ≤ used.card := by omega
        have hcardle : (Finset.range gs.length).card ≤ used.card := by
          rwa [Finset.card_range]
        have heq : used = Finset.range gs.length :=
          Finset.eq_of_subset_of_card_le hsub hcardle
        have hin : argminL (infRow p gs used) ∈ Finset.range gs.length :=
          Finset.mem_range.2 hpick.1
        rw [← heq] at hin
        exact hpick.2 hin
      | i' + 1 =>
        show (dgLoop gs t (insert (argminL (infRow p gs used)) used)).getD i' 0
            = t.getD i' 0
        apply ih
        · intro x hx
          rcases Finset.mem_insert.1 hx with rfl | hx'
          · exact Finset.mem_range.2 hpick.1
          · exact hsub hx'
        · simpa using hi
        · rw [Finset.card_insert_of_not_mem hpick.2]
          omega
    · rw [dgLoop, if_neg hcond]
      match i with
      | 0 => rfl
      | i' + 1 =>
        show (dgLoop gs t used).getD i' 0 = t.getD i' 0
        have hall : ∀ j, j < gs.length → j ∈ used := by
          intro j hj
          by_contra hju
          exact hcond ((infRow_exists_lt_top p gs used).2 ⟨j, hj, hju⟩)
        have hrange : Finset.range gs.length ⊆ used := fun x hx =>
          hall x (Finset.mem_range.1 hx)
        have hm : gs.length ≤ used.card := by
          have := Finset.card_le_card hrange
          rwa [Finset.card_range] at this
        apply ih used hsub
        · simpa using hi
        · omega

/-- C10: `APFSwarmController.distribute_goals` visits agents in index order;
with zero goals it returns an all-zero array instead of raising, and with
`1 ≤ m` goals every agent whose index is at least `m` (so every goal column
is already consumed at its turn) is assigned its own current position rather
than a duplicate goal. -/
theorem C10_distribute_goals_stay (poses gs : List Vec3) :
    (gs.length = 0 → distribute_goals poses gs = List.replicate poses.length 0) ∧
      (1 ≤ gs.length →
        ∀ i, gs.length ≤ i → i < poses.length →
          (distribute_goals poses gs).getD i 0 = poses.getD i 0) := by
  constructor
  · intro h
    simp [distribute_goals, h]
  · intro hm i hmi hi
    unfold distribute_goals
    rw [if_neg (by omega)]
    apply dgLoop_stay gs poses ∅ (by simp) i hi
    simp
    omega

/-- Witness for C10: one goal, two agents; the second agent stays at its own
position, and the zero-goal case returns the all-zero array. -/
theorem C10_distribute_goals_stay_witness :
    distribute_goals [⟨1, 2, 3⟩] [] = List.replicate 1 0 ∧
      (distribute_goals [⟨1, 2, 3⟩, ⟨4, 5, 6⟩] [⟨9, 9, 9⟩]).getD 1 0
        = ⟨4, 5, 6⟩ :=
  ⟨(C10_distribute_goals_stay [⟨1, 2, 3⟩] []).1 rfl,
    (C10_distribute_goals_stay [⟨1, 2, 3⟩, ⟨4, 5, 6⟩] [⟨9, 9, 9⟩]).2
      (Nat.le_refl 1) 1 (Nat.le_refl 1) (by decide)⟩

theorem sortedGoals_perm (row : ℕ → ℝ) (m : ℕ) :
    (sortedGoals row m).Perm (List.range m) :=
  List.perm_insertionSort _ _

theorem sortedGoals_sorted (row : ℕ → ℝ) (m : ℕ) :
    (sortedGoals row m).Sorted (keyLe row) :=
  List.sorted_insertionSort _ _

theorem sortedGoals_length (row : ℕ → ℝ) (m : ℕ) :
    (sortedGoals row m).length = m := by
  rw [(sortedGoals_perm row m).length_eq, List.length_range]

theorem sortedGoals_mem (row : ℕ → ℝ) (m : ℕ) (g : ℕ) :
    g ∈ sortedGoals row m ↔ g < m := by
  rw [(sortedGoals_perm row m).mem_iff, List.mem_range]

/-- The head of a key-sorted list minimizes the key. -/
theorem headD_min_of_sorted (key : ℕ → ℝ) (l : List ℕ)
    (hs : l.Sorted (keyLe key)) (hne : l ≠ []) :
    l.headD 0 ∈ l ∧ ∀ x ∈ l, key (l.headD 0) ≤ key x := by
  match l, hne with
  | a :: t, _ =>
    refine ⟨List.mem_cons_self a t, ?_⟩
    intro x hx
    rcases List.mem_cons.1 hx with rfl | hx'
    · exact le_refl _
    · exact List.rel_of_sorted_cons hs x hx'

/-- The first entry of a key-sorted list satisfying a predicate minimizes
the key among entries satisfying it. -/
theorem find?_min_of_sorted (key : ℕ → ℝ) (p : ℕ → Bool) :
    ∀ (l : List ℕ), l.Sorted (keyLe key) → ∀ g, l.find? p = some g →
      ∀ x ∈ l, p x = true → key g ≤ key x := by
  intro l
  induction l with
  | nil => intro _ g hfind; simp at hfind
  | cons b t ih =>
    intro hs g hfind x hx hpx
    by_cases hb : p b = true
    · rw [List.find?_cons_of_pos _ hb] at hfind
      have hgb : g = b := by injection hfind with h; exact h.symm
      subst hgb
      rcases List.mem_cons.1 hx with rfl | hx'
      · exact le_refl _
      · exact List.rel_of_sorted_cons hs x hx'
    · rw [List.find?_cons_of_neg _ (by simpa using hb)] at hfind
      rcases List.mem_cons.1 hx with rfl | hx'
      · exact absurd hpx hb
      · exact ih hs.of_cons g hfind x hx' hpx

/-- With duplicates allowed and at least one goal, each drone picks an
in-range goal of minimal distance, ignoring prior claims. -/
theorem pickGoal_dup_spec (row : ℕ → ℝ) (m : ℕ) (assigned : Finset ℕ)
    (hm : 1 ≤ m) :
    pickGoal row m assigned true < m ∧
      ∀ g, g < m → row (pickGoal row m assigned true) ≤ row g := by
  have hne : sortedGoals row m ≠ [] := by
    intro hnil
    have := sortedGoals_length row m
    rw [hnil] at this
    simp at this
    omega
  obtain ⟨hmem, hmin⟩ := headD_min_of_sorted row _ (sortedGoals_sorted row m) hne
  constructor
  · show (sortedGoals row m).headD 0 < m
    exact (sortedGoals_mem row m _).1 hmem
  · intro g hg
    exact hmin g ((sortedGoals_mem row m g).2 hg)

/-- With duplicates disallowed and an unclaimed in-range goal available,
each drone picks an unclaimed in-range goal of minimal distance among the
unclaimed ones. -/
theorem pickGoal_unique_spec (row : ℕ → ℝ) (m : ℕ) (assigned : Finset ℕ)
    (h : ∃ j, j < m ∧ j ∉ assigned) :
    pickGoal row m assigned false < m ∧
      pickGoal row m assigned false ∉ assigned ∧
      ∀ g, g < m → g ∉ assigned → row (pickGoal row m assigned false) ≤ row g := by
  obtain ⟨j, hj, hju⟩ := h
  have hjs : j ∈ sortedGoals row m := (sortedGoals_mem row m j).2 hj
  have hsome : ((sortedGoals row m).find? (fun g => decide (g ∉ assigned))).isSome := by
    rw [List.find?_isSome]
    exact ⟨j, hjs, by simpa using hju⟩
  obtain ⟨g, hg⟩ := Option.isSome_iff_exists.1 hsome
  have hpg : pickGoal row m assigned false = g := by
    unfold pickGoal
    rw [if_neg (by simp)]
    rw [hg]
  have hgmem : g ∈ sortedGoals row m := List.mem_of_find?_eq_some hg
  have hgp := List.find?_some hg
  rw [hpg]
  refine ⟨(sortedGoals_mem row m g).1 hgmem, by simpa using hgp, ?_⟩
  intro x hx hxu
  exact find?_min_of_sorted row _ _ (sortedGoals_sorted row m) g hg x
    ((sortedGoals_mem row m x).2 hx) (by simpa using hxu)

theorem assignLoop_length (dists : ℕ → ℕ → ℝ) (m : ℕ) (allowDup : Bool) :
    ∀ (ord : List ℕ) (assigned : Finset ℕ),
      (assignLoop dists m allowDup ord assigned).length = ord.length := by
  intro ord
  induction ord with
  | nil => intro assigned; rfl
  | cons di rest ih =>
    intro assigned
    show _ + 1 = _ + 1
    rw [ih]

theorem assignLoop_fst (dists : ℕ → ℕ → ℝ) (m : ℕ) (allowDup : Bool) :
    ∀ (ord : List ℕ) (assigned : Finset ℕ),
      (assignLoop dists m allowDup ord assigned).map Prod.fst = ord := by
  intro ord
  induction ord with
  | nil => intro assigned; rfl
  | cons di rest ih =>
    intro assigned
    show di :: _ = di :: rest
    rw [ih]

theorem exists_unassigned (m : ℕ) (assigned : Finset ℕ)
    (h : assigned.card < m) : ∃ j, j < m ∧ j ∉ assigned := by
  by_contra hc
  push_neg at hc
  have hsub : Finset.range m ⊆ assigned := fun j hj =>
    hc j (Finset.mem_range.1 hj)
  have := Finset.card_le_card hsub
  rw [Finset.card_range] at this
  omega

/-- In the duplicates-disallowed loop, the picked goals are pairwise
distinct, in range, and disjoint from the initially assigned set. -/
theorem assignLoop_unique_nodup (dists : ℕ → ℕ → ℝ) (m : ℕ) :
    ∀ (ord : List ℕ) (assigned : Finset ℕ),
      assigned.card + ord.length ≤ m →
      ((assignLoop dists m false ord assigned).map Prod.snd).Nodup ∧
        ∀ g ∈ (assignLoop dists m false ord assigned).map Prod.snd,
          g < m ∧ g ∉ assigned := by
  intro ord
  induction ord with
  | nil =>
    intro assigned _
    refine ⟨List.nodup_nil, ?_⟩
    intro g hg
    exact absurd hg (List.not_mem_nil g)
  | cons di rest ih =>
    intro assigned hcard
    rw [List.length_cons] at hcard
    have hex : ∃ j, j < m ∧ j ∉ assigned :=
      exists_unassigned m assigned (by omega)
    obtain ⟨hp1, hp2, -⟩ := pickGoal_unique_spec (dists di) m assigned hex
    have hcard' : (insert (pickGoal (dists di) m assigned false) assigned).card
        + rest.length ≤ m := by
      rw [Finset.card_insert_of_not_mem hp2]
      omega
    obtain ⟨ihnd, ihmem⟩ := ih (insert (pickGoal (dists di) m assigned false)
      assigned) hcard'
    have hunfold : assignLoop dists m false (di :: rest) assigned
        = (di, pickGoal (dists di) m assigned false) ::
            assignLoop dists m false rest
              (insert (pickGoal (dists di) m assigned false) assigned) := rfl
    rw [hunfold, List.map_cons]
    constructor
    · rw [List.nodup_cons]
      refine ⟨?_, ihnd⟩
      intro hmem
      exact (ihmem _ hmem).2 (Finset.mem_insert_self _ _)
    · intro g hg
      rcases List.mem_cons.1 hg with rfl | hg'
      · exact ⟨hp1, hp2⟩
      · refine ⟨(ihmem g hg').1, fun hga => (ihmem g hg').2 ?_⟩
        exact Finset.mem_insert_of_mem hga

/-- C3: when the number of goals equals the number of agents, the mapping
returned by `_assign_nearest_unique` is a bijection: its goal-index values
are a permutation of `0 .. m-1`. -/
theorem C3_assignment_bijection (positions goals : List Vec3)
    (h : goals.length = positions.length) :
    ((assign_nearest_unique positions goals).map Prod.snd).Perm
      (List.range goals.length) := by
  have hdup : decide (goals.length < positions.length) = false := by
    rw [decide_eq_false_iff_not]
    omega
  unfold assign_nearest_unique
  rw [hdup]
  have hordlen : (droneOrder (nearestUniqueDists positions goals)
      positions.length goals.length).length = positions.length := by
    unfold droneOrder
    rw [(List.perm_insertionSort _ _).length_eq, List.length_range]
  have hle : (∅ : Finset ℕ).card + (droneOrder (nearestUniqueDists positions
      goals) positions.length goals.length).length ≤ goals.length := by
    rw [Finset.card_empty, hordlen]
    omega
  obtain ⟨hnd, hmem⟩ := assignLoop_unique_nodup
    (nearestUniqueDists positions goals) goals.length _ ∅ hle
  have hlen : ((assignLoop (nearestUniqueDists positions goals) goals.length
      false (droneOrder (nearestUniqueDists positions goals) positions.length
        goals.length) ∅).map Prod.snd).length = goals.length := by
    rw [List.length_map, assignLoop_length, hordlen, h]
  have hsub : ((assignLoop (nearestUniqueDists positions goals) goals.length
      false (droneOrder (nearestUniqueDists positions goals) positions.length
        goals.length) ∅).map Prod.snd).toFinset ⊆ Finset.range goals.length := by
    intro a ha
    rw [List.mem_toFinset] at ha
    exact Finset.mem_range.2 (hmem a ha).1
  have hcard : ((assignLoop (nearestUniqueDists positions goals) goals.length
      false (droneOrder (nearestUniqueDists positions goals) positions.length
        goals.length) ∅).map Prod.snd).toFinset.card = goals.length := by
    rw [List.toFinset_card_of_nodup hnd, hlen]
  have heq : ((assignLoop (nearestUniqueDists positions goals) goals.length
      false (droneOrder (nearestUniqueDists positions goals) positions.length
        goals.length) ∅).map Prod.snd).toFinset = Finset.range goals.length :=
    Finset.eq_of_subset_of_card_le hsub
      (by rw [hcard, Finset.card_range])
  rw [List.perm_ext_iff_of_nodup hnd (List.nodup_range _)]
  intro a
  rw [← List.mem_toFinset, heq, Finset.mem_range, List.mem_range]

/-- Witness for C3: one agent and one goal. -/
theorem C3_assignment_bijection_witness :
    ((assign_nearest_unique [⟨0, 0, 0⟩] [⟨1, 1, 1⟩]).map Prod.snd).Perm
      (List.range 1) :=
  C3_assignment_bijection [⟨0, 0, 0⟩] [⟨1, 1, 1⟩] rfl

/-- In the duplicates-allowed loop every drone, whatever its turn, picks an
in-range goal of minimal distance, ignoring prior claims. -/
theorem assignLoop_dup_spec (dists : ℕ → ℕ → ℝ) (m : ℕ) (hm : 1 ≤ m) :
    ∀ (ord : List ℕ) (assigned : Finset ℕ),
      ∀ pr ∈ assignLoop dists m true ord assigned,
        pr.2 < m ∧ ∀ g, g < m → dists pr.1 pr.2 ≤ dists pr.1 g := by
  intro ord
  induction ord with
  | nil =>
    intro assigned pr hpr
    exact absurd hpr (List.not_mem_nil pr)
  | cons di rest ih =>
    intro assigned pr hpr
    have hunfold : assignLoop dists m true (di :: rest) assigned
        = (di, pickGoal (dists di) m assigned true) ::
            assignLoop dists m true rest
              (insert (pickGoal (dists di) m assigned true) assigned) := rfl
    rw [hunfold] at hpr
    rcases List.mem_cons.1 hpr with rfl | hpr'
    · obtain ⟨h1, h2⟩ := pickGoal_dup_spec (dists di) m assigned hm
      exact ⟨h1, fun g hg => h2 g hg⟩
    · exact ih _ pr hpr'

/-- C4 (amended): when `1 ≤ m < n`, *every* agent — regardless of its turn —
claims a nearest goal overall (minimal distance over all `m` goals),
ignoring prior claims entirely. -/
theorem C4_duplicates_nearest_overall (positions goals : List Vec3)
    (hm : 1 ≤ goals.length) (hn : goals.length < positions.length) :
    ∀ pr ∈ assign_nearest_unique positions goals,
      pr.2 < goals.length ∧
        ∀ g, g < goals.length →
          nearestUniqueDists positions goals pr.1 pr.2 ≤
            nearestUniqueDists positions goals pr.1 g := by
  have hdup : decide (goals.length < positions.length) = true :=
    decide_eq_true hn
  unfold assign_nearest_unique
  rw [hdup]
  exact assignLoop_dup_spec (nearestUniqueDists positions goals)
    goals.length hm _ ∅

/-- Witness for C4's amended theorem: two agents, one goal. -/
theorem C4_duplicates_nearest_overall_witness :
    (1 ≤ [(⟨2, 0, 0⟩ : Vec3)].length ∧
        [(⟨2, 0, 0⟩ : Vec3)].length < [(⟨0, 0, 0⟩ : Vec3), ⟨1, 0, 0⟩].length) ∧
      ∀ pr ∈ assign_nearest_unique [⟨0, 0, 0⟩, ⟨1, 0, 0⟩] [⟨2, 0, 0⟩],
        pr.2 < [(⟨2, 0, 0⟩ : Vec3)].length ∧
          ∀ g, g < [(⟨2, 0, 0⟩ : Vec3)].length →
            nearestUniqueDists [⟨0, 0, 0⟩, ⟨1, 0, 0⟩] [⟨2, 0, 0⟩] pr.1 pr.2 ≤
              nearestUniqueDists [⟨0, 0, 0⟩, ⟨1, 0, 0⟩] [⟨2, 0, 0⟩] pr.1 g :=
  ⟨⟨by decide, by decide⟩,
    C4_duplicates_nearest_overall [⟨0, 0, 0⟩, ⟨1, 0, 0⟩] [⟨2, 0, 0⟩]
      (by decide) (by decide)⟩

/-- In the duplicates-disallowed loop, step `k` picks an unclaimed in-range
goal of minimal distance among the goals not claimed before step `k`
(claims accumulated on top of the initial `assigned` set). -/
theorem assignLoop_unique_trace (dists : ℕ → ℕ → ℝ) (m : ℕ) :
    ∀ (ord : List ℕ) (assigned : Finset ℕ),
      assigned.card + ord.length ≤ m →
      ∀ k, k < ord.length →
        ((assignLoop dists m false ord assigned).getD k (0, 0)).2 < m ∧
        ((assignLoop dists m false ord assigned).getD k (0, 0)).2 ∉
          assigned ∪ claimedBefore (assignLoop dists m false ord assigned) k ∧
        ∀ g, g < m →
          g ∉ assigned ∪ claimedBefore (assignLoop dists m false ord assigned) k →
          dists ((assignLoop dists m false ord assigned).getD k (0, 0)).1
              ((assignLoop dists m false ord assigned).getD k (0, 0)).2 ≤
            dists ((assignLoop dists m false ord assigned).getD k (0, 0)).1 g := by
  intro ord
  induction ord with
  | nil =>
    intro assigned _ k hk
    simp at hk
  | cons di rest ih =>
    intro assigned hcard k hk
    rw [List.length_cons] at hcard
    have hex : ∃ j, j < m ∧ j ∉ assigned :=
      exists_unassigned m assigned (by omega)
    obtain ⟨hp1, hp2, hp3⟩ := pickGoal_unique_spec (dists di) m assigned hex
    have hunfold : assignLoop dists m false (di :: rest) assigned
        = (di, pickGoal (dists di) m assigned false) ::
            assignLoop dists m false rest
              (insert (pickGoal (dists di) m assigned false) assigned) := rfl
    match k with
    | 0 =>
      rw [hunfold]
      have hget : ((di, pickGoal (dists di) m assigned false) ::
          assignLoop dists m false rest
            (insert (pickGoal (dists di) m assigned false) assigned)).getD 0
              (0, 0) = (di, pickGoal (dists di) m assigned false) := rfl
      have hcb : claimedBefore ((di, pickGoal (dists di) m assigned false) ::
          assignLoop dists m false rest
            (insert (pickGoal (dists di) m assigned false) assigned)) 0
            = (∅ : Finset ℕ) := rfl
      rw [hget, hcb, Finset.union_empty]
      exact ⟨hp1, hp2, hp3⟩
    | k' + 1 =>
      rw [hunfold]
      have hcard' : (insert (pickGoal (dists di) m assigned false)
          assigned).card + rest.length ≤ m := by
        rw [Finset.card_insert_of_not_mem hp2]
        omega
      have hk' : k' < rest.length := by
        rw [List.length_cons] at hk
        omega
      have hget : ∀ pr : ℕ × ℕ, ∀ L : List (ℕ × ℕ),
          (pr :: L).getD (k' + 1) (0, 0) = L.getD k' (0, 0) := by
        intro pr L
        rfl
      have hcb : claimedBefore ((di, pickGoal (dists di) m assigned false) ::
          assignLoop dists m false rest
            (insert (pickGoal (dists di) m assigned false) assigned)) (k' + 1)
          = insert (pickGoal (dists di) m assigned false)
              (claimedBefore (assignLoop dists m false rest
                (insert (pickGoal (dists di) m assigned false) assigned)) k') := by
        unfold claimedBefore
        rw [List.take_succ_cons, List.map_cons, List.toFinset_cons]
      have hset : assigned ∪ insert (pickGoal (dists di) m assigned false)
            (claimedBefore (assignLoop dists m false rest
              (insert (pickGoal (dists di) m assigned false) assigned)) k')
          = insert (pickGoal (dists di) m assigned false) assigned ∪
              claimedBefore (assignLoop dists m false rest
                (insert (pickGoal (dists di) m assigned false) assigned)) k' := by
        rw [Finset.union_insert, Finset.insert_union]
      rw [hget, hcb, hset]
      exact ih (insert (pickGoal (dists di) m assigned false) assigned)
        hcard' k' hk'

/-- C5: with at least as many goals as agents, `_assign_nearest_unique`
processes the agents in `np.argsort(-min_dists)` order — descending in each
agent's distance to its nearest goal — and each agent, at its turn, claims
an unclaimed goal of minimal distance among the goals not yet claimed. -/
theorem C5_farthest_first_nearest_unclaimed (positions goals : List Vec3)
    (hnm : positions.length ≤ goals.length) :
    ((assign_nearest_unique positions goals).map Prod.fst
        = droneOrder (nearestUniqueDists positions goals) positions.length
            goals.length) ∧
      (droneOrder (nearestUniqueDists positions goals) positions.length
          goals.length).Pairwise
        (fun a b => rowMin (nearestUniqueDists positions goals b) goals.length ≤
          rowMin (nearestUniqueDists positions goals a) goals.length) ∧
      ∀ k, k < (assign_nearest_unique positions goals).length →
        ((assign_nearest_unique positions goals).getD k (0, 0)).2 <
            goals.length ∧
          ((assign_nearest_unique positions goals).getD k (0, 0)).2 ∉
            claimedBefore (assign_nearest_unique positions goals) k ∧
          ∀ g, g < goals.length →
            g ∉ claimedBefore (assign_nearest_unique positions goals) k →
            nearestUniqueDists positions goals
                ((assign_nearest_unique positions goals).getD k (0, 0)).1
                ((assign_nearest_unique positions goals).getD k (0, 0)).2 ≤
              nearestUniqueDists positions goals
                ((assign_nearest_unique positions goals).getD k (0, 0)).1 g := by
  have hdup : decide (goals.length < positions.length) = false := by
    rw [decide_eq_false_iff_not]
    omega
  have hordlen : (droneOrder (nearestUniqueDists positions goals)
      positions.length goals.length).length = positions.length := by
    unfold droneOrder
    rw [(List.perm_insertionSort _ _).length_eq, List.length_range]
  refine ⟨?_, ?_, ?_⟩
  · unfold assign_nearest_unique
    rw [hdup]
    exact assignLoop_fst _ _ _ _ _
  · have hsorted : (droneOrder (nearestUniqueDists positions goals)
        positions.length goals.length).Sorted
          (keyLe fun i => -(rowMin (nearestUniqueDists positions goals i)
            goals.length)) :=
      List.sorted_insertionSort _ _
    refine hsorted.imp ?_
    intro a b hab
    exact neg_le_neg_iff.1 hab
  · intro k hk
    unfold assign_nearest_unique at hk ⊢
    rw [hdup] at hk ⊢
    rw [assignLoop_length, hordlen] at hk
    have hle : (∅ : Finset ℕ).card + (droneOrder (nearestUniqueDists positions
        goals) positions.length goals.length).length ≤ goals.length := by
      rw [Finset.card_empty, hordlen]
      omega
    have := assignLoop_unique_trace (nearestUniqueDists positions goals)
      goals.length _ ∅ hle k (by rw [hordlen]; exact hk)
    rwa [Finset.empty_union] at this

/-- Witness for C5: one agent, one goal. -/
theorem C5_farthest_first_nearest_unclaimed_witness :
    ((assign_nearest_unique [⟨0, 0, 0⟩] [⟨1, 0, 0⟩]).map Prod.fst
        = droneOrder (nearestUniqueDists [⟨0, 0, 0⟩] [⟨1, 0, 0⟩]) 1 1) ∧
      (droneOrder (nearestUniqueDists [⟨0, 0, 0⟩] [⟨1, 0, 0⟩]) 1 1).Pairwise
        (fun a b => rowMin (nearestUniqueDists [⟨0, 0, 0⟩] [⟨1, 0, 0⟩] b) 1 ≤
          rowMin (nearestUniqueDists [⟨0, 0, 0⟩] [⟨1, 0, 0⟩] a) 1) ∧
      ∀ k, k < (assign_nearest_unique [⟨0, 0, 0⟩] [⟨1, 0, 0⟩]).length →
        ((assign_nearest_unique [⟨0, 0, 0⟩] [⟨1, 0, 0⟩]).getD k (0, 0)).2 < 1 ∧
          ((assign_nearest_unique [⟨0, 0, 0⟩] [⟨1, 0, 0⟩]).getD k (0, 0)).2 ∉
            claimedBefore (assign_nearest_unique [⟨0, 0, 0⟩] [⟨1, 0, 0⟩]) k ∧
          ∀ g, g < 1 →
            g ∉ claimedBefore (assign_nearest_unique [⟨0, 0, 0⟩] [⟨1, 0, 0⟩]) k →
            nearestUniqueDists [⟨0, 0, 0⟩] [⟨1, 0, 0⟩]
                ((assign_nearest_unique [⟨0, 0, 0⟩] [⟨1, 0, 0⟩]).getD k (0, 0)).1
                ((assign_nearest_unique [⟨0, 0, 0⟩] [⟨1, 0, 0⟩]).getD k (0, 0)).2 ≤
              nearestUniqueDists [⟨0, 0, 0⟩] [⟨1, 0, 0⟩]
                ((assign_nearest_unique [⟨0, 0, 0⟩] [⟨1, 0, 0⟩]).getD k (0, 0)).1 g :=
  C5_farthest_first_nearest_unclaimed [⟨0, 0, 0⟩] [⟨1, 0, 0⟩] (Nat.le_refl 1)

theorem orderedInsert_forall_rel (r : ℕ → ℕ → Prop) [DecidableRel r] (a : ℕ)
    (l : List ℕ) (h : ∀ b ∈ l, r a b) : List.orderedInsert r a l = a :: l := by
  cases l with
  | nil => rfl
  | cons b t => rw [List.orderedInsert, if_pos (h b (List.mem_cons_self b t))]

theorem insertionSort_forall_rel (r : ℕ → ℕ → Prop) [DecidableRel r]
    (h : ∀ a b, r a b) : ∀ l : List ℕ, List.insertionSort r l = l := by
  intro l
  induction l with
  | nil => rfl
  | cons a t ih =>
    rw [List.insertionSort, ih, orderedInsert_forall_rel r a t fun b _ => h a b]

/-- C4 counterexample: three drones at the origin, two goals at XY-distances
5 and 10.  Every drone takes goal 0 (its nearest overall), so only one
distinct goal index is covered — fewer than `m = 2` — and the number of
duplicate usages is `2 > n − m = 1`. -/
theorem C4_counterexample :
    ((assign_nearest_unique [⟨0, 0, 0⟩, ⟨0, 0, 0⟩, ⟨0, 0, 0⟩]
          [⟨3, 4, 0⟩, ⟨6, 8, 0⟩]).map Prod.snd) = [0, 0, 0] ∧
      ¬ ((2 : ℕ) ≤ ((assign_nearest_unique [⟨0, 0, 0⟩, ⟨0, 0, 0⟩, ⟨0, 0, 0⟩]
          [⟨3, 4, 0⟩, ⟨6, 8, 0⟩]).map Prod.snd).toFinset.card) := by
  have sqrt25 : Real.sqrt 25 = 5 := by
    rw [show (25 : ℝ) = 5 ^ 2 by norm_num]
    exact Real.sqrt_sq (by norm_num)
  have sqrt100 : Real.sqrt 100 = 10 := by
    rw [show (100 : ℝ) = 10 ^ 2 by norm_num]
    exact Real.sqrt_sq (by norm_num)
  have hgetP : ∀ i : ℕ,
      ([⟨0, 0, 0⟩, ⟨0, 0, 0⟩, ⟨0, 0, 0⟩] : List Vec3).getD i 0 = ⟨0, 0, 0⟩ := by
    intro i
    match i with
    | 0 => rfl
    | 1 => rfl
    | 2 => rfl
    | n + 3 => rfl
  have hd0 : ∀ i, nearestUniqueDists [⟨0, 0, 0⟩, ⟨0, 0, 0⟩, ⟨0, 0, 0⟩]
      [⟨3, 4, 0⟩, ⟨6, 8, 0⟩] i 0 = 5 := by
    intro i
    unfold nearestUniqueDists
    rw [hgetP i]
    show Real.sqrt (((0 : ℝ) - 3) ^ 2 + ((0 : ℝ) - 4) ^ 2) = 5
    rw [show ((0 : ℝ) - 3) ^ 2 + ((0 : ℝ) - 4) ^ 2 = 25 by norm_num, sqrt25]
  have hd1 : ∀ i, nearestUniqueDists [⟨0, 0, 0⟩, ⟨0, 0, 0⟩, ⟨0, 0, 0⟩]
      [⟨3, 4, 0⟩, ⟨6, 8, 0⟩] i 1 = 10 := by
    intro i
    unfold nearestUniqueDists
    rw [hgetP i]
    show Real.sqrt (((0 : ℝ) - 6) ^ 2 + ((0 : ℝ) - 8) ^ 2) = 10
    rw [show ((0 : ℝ) - 6) ^ 2 + ((0 : ℝ) - 8) ^ 2 = 100 by norm_num, sqrt100]
  have hrm : ∀ i, rowMin (nearestUniqueDists [⟨0, 0, 0⟩, ⟨0, 0, 0⟩, ⟨0, 0, 0⟩]
      [⟨3, 4, 0⟩, ⟨6, 8, 0⟩] i) 2 = 5 := by
    intro i
    have hr : rowMin (nearestUniqueDists [⟨0, 0, 0⟩, ⟨0, 0, 0⟩, ⟨0, 0, 0⟩]
        [⟨3, 4, 0⟩, ⟨6, 8, 0⟩] i) 2
        = min (min (nearestUniqueDists [⟨0, 0, 0⟩, ⟨0, 0, 0⟩, ⟨0, 0, 0⟩]
              [⟨3, 4, 0⟩, ⟨6, 8, 0⟩] i 0)
            (nearestUniqueDists [⟨0, 0, 0⟩, ⟨0, 0, 0⟩, ⟨0, 0, 0⟩]
              [⟨3, 4, 0⟩, ⟨6, 8, 0⟩] i 0))
            (nearestUniqueDists [⟨0, 0, 0⟩, ⟨0, 0, 0⟩, ⟨0, 0, 0⟩]
              [⟨3, 4, 0⟩, ⟨6, 8, 0⟩] i 1) := rfl
    rw [hr, hd0 i, hd1 i, min_self]
    exact min_eq_left (by norm_num)
  have hkeyall : ∀ a b : ℕ,
      keyLe (fun i => -(rowMin (nearestUniqueDists [⟨0, 0, 0⟩, ⟨0, 0, 0⟩,
        ⟨0, 0, 0⟩] [⟨3, 4, 0⟩, ⟨6, 8, 0⟩] i) 2)) a b := by
    intro a b
    show -(rowMin (nearestUniqueDists [⟨0, 0, 0⟩, ⟨0, 0, 0⟩, ⟨0, 0, 0⟩]
        [⟨3, 4, 0⟩, ⟨6, 8, 0⟩] a) 2)
        ≤ -(rowMin (nearestUniqueDists [⟨0, 0, 0⟩, ⟨0, 0, 0⟩, ⟨0, 0, 0⟩]
          [⟨3, 4, 0⟩, ⟨6, 8, 0⟩] b) 2)
    rw [hrm a, hrm b]
  have hord : droneOrder (nearestUniqueDists [⟨0, 0, 0⟩, ⟨0, 0, 0⟩, ⟨0, 0, 0⟩]
      [⟨3, 4, 0⟩, ⟨6, 8, 0⟩]) 3 2 = [0, 1, 2] := by
    unfold droneOrder
    rw [insertionSort_forall_rel _ hkeyall]
    rfl
  have hpick : ∀ (di : ℕ) (asg : Finset ℕ),
      pickGoal (nearestUniqueDists [⟨0, 0, 0⟩, ⟨0, 0, 0⟩, ⟨0, 0, 0⟩]
        [⟨3, 4, 0⟩, ⟨6, 8, 0⟩] di) 2 asg true = 0 := by
    intro di asg
    show (sortedGoals (nearestUniqueDists [⟨0, 0, 0⟩, ⟨0, 0, 0⟩, ⟨0, 0, 0⟩]
        [⟨3, 4, 0⟩, ⟨6, 8, 0⟩] di) 2).headD 0 = 0
    have hcond : keyLe (nearestUniqueDists [⟨0, 0, 0⟩, ⟨0, 0, 0⟩, ⟨0, 0, 0⟩]
        [⟨3, 4, 0⟩, ⟨6, 8, 0⟩] di) 0 1 := by
      show nearestUniqueDists [⟨0, 0, 0⟩, ⟨0, 0, 0⟩, ⟨0, 0, 0⟩]
          [⟨3, 4, 0⟩, ⟨6, 8, 0⟩] di 0
          ≤ nearestUniqueDists [⟨0, 0, 0⟩, ⟨0, 0, 0⟩, ⟨0, 0, 0⟩]
            [⟨3, 4, 0⟩, ⟨6, 8, 0⟩] di 1
      rw [hd0 di, hd1 di]
      norm_num
    unfold sortedGoals
    rw [show List.range 2 = [0, 1] from rfl]
    rw [List.insertionSort, List.insertionSort, List.insertionSort]
    rw [List.orderedInsert]
    rw [List.orderedInsert, if_pos hcond]
    rfl
  have hloop : assignLoop (nearestUniqueDists [⟨0, 0, 0⟩, ⟨0, 0, 0⟩, ⟨0, 0, 0⟩]
      [⟨3, 4, 0⟩, ⟨6, 8, 0⟩]) 2 true [0, 1, 2] ∅
      = [(0, 0), (1, 0), (2, 0)] := by
    simp only [assignLoop, hpick]
  have hmain : assign_nearest_unique [⟨0, 0, 0⟩, ⟨0, 0, 0⟩, ⟨0, 0, 0⟩]
      [⟨3, 4, 0⟩, ⟨6, 8, 0⟩] = [(0, 0), (1, 0), (2, 0)] := by
    show assignLoop (nearestUniqueDists [⟨0, 0, 0⟩, ⟨0, 0, 0⟩, ⟨0, 0, 0⟩]
        [⟨3, 4, 0⟩, ⟨6, 8, 0⟩]) 2 true
        (droneOrder (nearestUniqueDists [⟨0, 0, 0⟩, ⟨0, 0, 0⟩, ⟨0, 0, 0⟩]
          [⟨3, 4, 0⟩, ⟨6, 8, 0⟩]) 3 2) ∅ = [(0, 0), (1, 0), (2, 0)]
    rw [hord]
    exact hloop
  rw [hmain]
  exact ⟨rfl, by decide⟩

theorem sqrt_eval {a b : ℝ} (hb : 0 ≤ b) (h : b ^ 2 = a) : Real.sqrt a = b := by
  rw [← h]
  exact Real.sqrt_sq hb

theorem dist3_comm (a b : Vec3) : dist3 a b = dist3 b a := by
  unfold dist3 norm3 normSq
  simp
  ring_nf

theorem getD_map_range {α : Type} (n : ℕ) (f : ℕ → α) (d : α) (i : ℕ)
    (hi : i < n) : ((List.range n).map f).getD i d = f i := by
  rw [List.getD_eq_getElem?_getD, List.getElem?_map, List.getElem?_range hi]
  rfl

/-- C6 (amended): in the predictive collision check the pair distance is the
*XY-plane* distance of the one-tick-ahead predicted positions; both members
of any such close pair have their velocities halved before dispatch, and an
agent in no such pair is dispatched unchanged. -/
theorem C6_predictive_damp_halves (minDist dt : ℝ) (pos vels : List Vec3) :
    (∀ i j, i < pos.length → j < pos.length → i ≠ j →
        distXY (predictedPos dt pos vels i) (predictedPos dt pos vels j)
            < max 0.5 minDist →
          (predictiveDamp minDist dt pos vels).getD i 0
              = (0.5 : ℝ) • vels.getD i 0 ∧
            (predictiveDamp minDist dt pos vels).getD j 0
              = (0.5 : ℝ) • vels.getD j 0) ∧
      ∀ i, i < pos.length →
        (∀ j, j < pos.length → j ≠ i →
          ¬ distXY (predictedPos dt pos vels i) (predictedPos dt pos vels j)
              < max 0.5 minDist) →
        (predictiveDamp minDist dt pos vels).getD i 0 = vels.getD i 0 := by
  have hget : ∀ i, i < pos.length →
      (predictiveDamp minDist dt pos vels).getD i 0
        = if ∃ j, j < pos.length ∧
              (conflictPair minDist dt pos vels i j ∨
                conflictPair minDist dt pos vels j i)
          then (0.5 : ℝ) • vels.getD i 0
          else vels.getD i 0 := by
    intro i hi
    exact getD_map_range pos.length _ 0 i hi
  constructor
  · intro i j hi hj hne hd
    constructor
    · rw [hget i hi, if_pos ⟨j, hj, Or.inl ⟨hne, hd⟩⟩]
    · rw [hget j hj, if_pos ⟨i, hi, Or.inr ⟨hne, hd⟩⟩]
  · intro i hi hno
    rw [hget i hi, if_neg]
    rintro ⟨j, hj, hc | hc⟩
    · exact hno j hj (Ne.symm hc.1) hc.2
    · refine hno j hj hc.1 ?_
      rw [distXY_comm]
      exact hc.2

/-- C6 counterexample: two agents vertically separated by 10 m share the
same predicted XY position.  No pair of 3D predicted positions is closer
than the threshold (their distance is 10 ≥ max(0.5, 1)), yet agent 0's
velocity is halved rather than dispatched unchanged. -/
theorem C6_counterexample :
    (∀ i j : ℕ, i < 2 → j < 2 → i ≠ j →
        ¬ dist3 (predictedPos 0.5 [⟨0, 0, 0⟩, ⟨0, 0, 10⟩] [⟨1, 0, 0⟩, ⟨1, 0, 0⟩] i)
            (predictedPos 0.5 [⟨0, 0, 0⟩, ⟨0, 0, 10⟩] [⟨1, 0, 0⟩, ⟨1, 0, 0⟩] j)
            < max 0.5 1) ∧
      (predictiveDamp 1 0.5 [⟨0, 0, 0⟩, ⟨0, 0, 10⟩]
          [⟨1, 0, 0⟩, ⟨1, 0, 0⟩]).getD 0 0
        ≠ ([⟨1, 0, 0⟩, ⟨1, 0, 0⟩] : List Vec3).getD 0 0 := by
  have hpred0 : predictedPos 0.5 [⟨0, 0, 0⟩, ⟨0, 0, 10⟩] [⟨1, 0, 0⟩, ⟨1, 0, 0⟩] 0
      = ⟨0.5, 0, 0⟩ := by
    unfold predictedPos
    show (⟨0, 0, 0⟩ : Vec3) + (0.5 : ℝ) • (⟨1, 0, 0⟩ : Vec3) = ⟨0.5, 0, 0⟩
    simp
  have hpred1 : predictedPos 0.5 [⟨0, 0, 0⟩, ⟨0, 0, 10⟩] [⟨1, 0, 0⟩, ⟨1, 0, 0⟩] 1
      = ⟨0.5, 0, 10⟩ := by
    unfold predictedPos
    show (⟨0, 0, 10⟩ : Vec3) + (0.5 : ℝ) • (⟨1, 0, 0⟩ : Vec3) = ⟨0.5, 0, 10⟩
    simp
  have hmax : max (0.5 : ℝ) 1 = 1 := max_eq_right (by norm_num)
  have hdist : dist3 (⟨0.5, 0, 0⟩ : Vec3) ⟨0.5, 0, 10⟩ = 10 := by
    show Real.sqrt (((0.5 : ℝ) - 0.5) ^ 2 + ((0 : ℝ) - 0) ^ 2 +
      ((0 : ℝ) - 10) ^ 2) = 10
    exact sqrt_eval (by norm_num) (by norm_num)
  have hdxy : distXY (⟨0.5, 0, 0⟩ : Vec3) ⟨0.5, 0, 10⟩ = 0 := by
    show Real.sqrt (((0.5 : ℝ) - 0.5) ^ 2 + ((0 : ℝ) - 0) ^ 2) = 0
    exact sqrt_eval (by norm_num) (by norm_num)
  constructor
  · intro i j hi hj hne
    interval_cases i <;> interval_cases j
    · exact absurd rfl hne
    · rw [hpred0, hpred1, hdist, hmax]
      norm_num
    · rw [hpred1, hpred0, dist3_comm, hdist, hmax]
      norm_num
    · exact absurd rfl hne
  · have hcond : ∃ j, j < ([⟨0, 0, 0⟩, ⟨0, 0, 10⟩] : List Vec3).length ∧
        (conflictPair 1 0.5 [⟨0, 0, 0⟩, ⟨0, 0, 10⟩] [⟨1, 0, 0⟩, ⟨1, 0, 0⟩] 0 j ∨
          conflictPair 1 0.5 [⟨0, 0, 0⟩, ⟨0, 0, 10⟩] [⟨1, 0, 0⟩, ⟨1, 0, 0⟩] j 0) := by
      refine ⟨1, by decide, Or.inl ⟨by decide, ?_⟩⟩
      rw [hpred0, hpred1, hdxy, hmax]
      norm_num
    have hval : (predictiveDamp 1 0.5 [⟨0, 0, 0⟩, ⟨0, 0, 10⟩]
        [⟨1, 0, 0⟩, ⟨1, 0, 0⟩]).getD 0 0
        = (0.5 : ℝ) • ([⟨1, 0, 0⟩, ⟨1, 0, 0⟩] : List Vec3).getD 0 0 := by
      unfold predictiveDamp
      rw [getD_map_range ([⟨0, 0, 0⟩, ⟨0, 0, 10⟩] : List Vec3).length _ 0 0
        (by decide), if_pos hcond]
    rw [hval]
    show (⟨0.5 * 1, 0.5 * 0, 0.5 * 0⟩ : Vec3) ≠ ⟨1, 0, 0⟩
    intro hcontra
    have hx : (0.5 : ℝ) * 1 = 1 := congrArg Vec3.x hcontra
    norm_num at hx

/-- Witness for C6's amended theorem: the same vertically separated pair is
within the XY threshold, so both velocities are halved. -/
theorem C6_predictive_damp_halves_witness :
    distXY (predictedPos 0.5 [⟨0, 0, 0⟩, ⟨0, 0, 10⟩] [⟨1, 0, 0⟩, ⟨1, 0, 0⟩] 0)
        (predictedPos 0.5 [⟨0, 0, 0⟩, ⟨0, 0, 10⟩] [⟨1, 0, 0⟩, ⟨1, 0, 0⟩] 1)
        < max 0.5 1 ∧
      (predictiveDamp 1 0.5 [⟨0, 0, 0⟩, ⟨0, 0, 10⟩]
            [⟨1, 0, 0⟩, ⟨1, 0, 0⟩]).getD 0 0
          = (0.5 : ℝ) • ([⟨1, 0, 0⟩, ⟨1, 0, 0⟩] : List Vec3).getD 0 0 ∧
        (predictiveDamp 1 0.5 [⟨0, 0, 0⟩, ⟨0, 0, 10⟩]
            [⟨1, 0, 0⟩, ⟨1, 0, 0⟩]).getD 1 0
          = (0.5 : ℝ) • ([⟨1, 0, 0⟩, ⟨1, 0, 0⟩] : List Vec3).getD 1 0 := by
  have hdxy : distXY (predictedPos 0.5 [⟨0, 0, 0⟩, ⟨0, 0, 10⟩]
      [⟨1, 0, 0⟩, ⟨1, 0, 0⟩] 0)
      (predictedPos 0.5 [⟨0, 0, 0⟩, ⟨0, 0, 10⟩] [⟨1, 0, 0⟩, ⟨1, 0, 0⟩] 1)
      < max 0.5 1 := by
    have h0 : predictedPos 0.5 [⟨0, 0, 0⟩, ⟨0, 0, 10⟩] [⟨1, 0, 0⟩, ⟨1, 0, 0⟩] 0
        = ⟨0.5, 0, 0⟩ := by
      unfold predictedPos
      show (⟨0, 0, 0⟩ : Vec3) + (0.5 : ℝ) • (⟨1, 0, 0⟩ : Vec3) = ⟨0.5, 0, 0⟩
      simp
    have h1 : predictedPos 0.5 [⟨0, 0, 0⟩, ⟨0, 0, 10⟩] [⟨1, 0, 0⟩, ⟨1, 0, 0⟩] 1
        = ⟨0.5, 0, 10⟩ := by
      unfold predictedPos
      show (⟨0, 0, 10⟩ : Vec3) + (0.5 : ℝ) • (⟨1, 0, 0⟩ : Vec3) = ⟨0.5, 0, 10⟩
      simp
    rw [h0, h1]
    have : distXY (⟨0.5, 0, 0⟩ : Vec3) ⟨0.5, 0, 10⟩ = 0 := by
      show Real.sqrt (((0.5 : ℝ) - 0.5) ^ 2 + ((0 : ℝ) - 0) ^ 2) = 0
      exact sqrt_eval (by norm_num) (by norm_num)
    rw [this, max_eq_right (by norm_num : (0.5 : ℝ) ≤ 1)]
    norm_num
  exact ⟨hdxy,
    (C6_predictive_damp_halves 1 0.5 [⟨0, 0, 0⟩, ⟨0, 0, 10⟩]
      [⟨1, 0, 0⟩, ⟨1, 0, 0⟩]).1 0 1 (by decide) (by decide) (by decide) hdxy⟩

theorem fallback_circle_points_length (bmin bmax : Vec3) (n : ℕ) :
    (fallback_circle_points bmin bmax n).length = n := by
  unfold fallback_circle_points
  rw [List.length_map, List.length_range]

/-- C2: for `count ≥ 1`, a total (well-formed) SDF, and the documented
k-means and minimizer contracts, `generate_points` returns `Except.ok` with
exactly `count` points on both the fallback path and the clustering path. -/
theorem C2_generate_points_count (sdf : Vec3 → ℝ) (bmin bmax : Vec3)
    (samples : List Vec3) (km : ℤ → List Vec3 → Except Unit (List Vec3))
    (minr : List Vec3 → Option (List Vec3)) (count : ℤ)
    (hkm : ∀ (k : ℤ) (l : List Vec3), 1 ≤ k → k ≤ (l.length : ℤ) →
      ∃ out, km k l = Except.ok out ∧ (out.length : ℤ) = k)
    (hmr : ∀ c out, minr c = some out → out.length = c.length)
    (hc : 1 ≤ count) :
    ∃ pts, generate_points sdf bmin bmax samples km minr count
        = Except.ok pts ∧ (pts.length : ℤ) = count := by
  unfold generate_points
  by_cases hfb : ((filteredCandidates sdf bmin bmax samples count).length : ℤ)
      < count * 2
  · rw [if_pos hfb]
    refine ⟨_, rfl, ?_⟩
    rw [fallback_circle_points_length]
    omega
  · rw [if_neg hfb]
    have h2 : count ≤ ((filteredCandidates sdf bmin bmax samples
        count).length : ℤ) := by omega
    obtain ⟨out, hkmeq, hlen⟩ := hkm count _ hc h2
    rw [hkmeq]
    show ∃ pts, Except.ok (match minr out with | some o => o | none => out)
        = Except.ok pts ∧ ((pts.length : ℤ) = count)
    cases hmreq : minr out with
    | none =>
      refine ⟨out, ?_, hlen⟩
      rfl
    | some out2 =>
      refine ⟨out2, ?_, ?_⟩
      · rfl
      · rw [hmr out out2 hmreq]
        exact hlen

/-- Witness for C2: empty sample set (fallback path) with a k-means stub
satisfying the sklearn contract. -/
theorem C2_generate_points_count_witness :
    ∃ pts, generate_points (fun _ => 0) ⟨0, 0, 0⟩ ⟨1, 1, 1⟩ []
        (fun k l => if 1 ≤ k ∧ k ≤ (l.length : ℤ)
          then Except.ok (List.replicate k.toNat 0) else Except.error ())
        (fun _ => none) 1
        = Except.ok pts ∧ (pts.length : ℤ) = 1 := by
  refine C2_generate_points_count (fun _ => 0) ⟨0, 0, 0⟩ ⟨1, 1, 1⟩ [] _ _ 1
    ?_ ?_ (by decide)
  · intro k l hk hl
    rw [if_pos ⟨hk, hl⟩]
    refine ⟨List.replicate k.toNat 0, rfl, ?_⟩
    rw [List.length_replicate]
    omega
  · intro c out h
    exact absurd h (by simp)

/-- C8: for a requested count below 1, `generate_points` propagates the
k-means validation error (`n_clusters < 1` makes sklearn raise) instead of
returning a point set: the fallback branch is unreachable because a list
length is never below `2·count ≤ 0`. -/
theorem C8_invalid_count_error (sdf : Vec3 → ℝ) (bmin bmax : Vec3)
    (samples : List Vec3) (km : ℤ → List Vec3 → Except Unit (List Vec3))
    (minr : List Vec3 → Option (List Vec3)) (count : ℤ)
    (hkm0 : ∀ (k : ℤ) (l : List Vec3), k < 1 → km k l = Except.error ())
    (hc : count < 1) :
    generate_points sdf bmin bmax samples km minr count = Except.error () := by
  unfold generate_points
  rw [if_neg (by omega)]
  rw [hkm0 count _ hc]

/-- Witness for C8 at `count = 0`. -/
theorem C8_invalid_count_error_witness :
    generate_points (fun _ => 0) ⟨0, 0, 0⟩ ⟨1, 1, 1⟩ []
        (fun k l => if 1 ≤ k ∧ k ≤ (l.length : ℤ)
          then Except.ok (List.replicate k.toNat 0) else Except.error ())
        (fun _ => none) 0 = Except.error () := by
  refine C8_invalid_count_error (fun _ => 0) ⟨0, 0, 0⟩ ⟨1, 1, 1⟩ [] _ _ 0
    ?_ (by decide)
  intro k l hk
  rw [if_neg]
  intro hcontra
  omega

/-- C7 (amended): when fewer than `2·count` candidates survive filtering,
`generate_points` returns exactly the fallback circle; its `count` points
sit at angles `2πk/count` (consecutive spacing `2π/count`) on the circle of
radius `max(span_x, span_y)/2` (or `1` if that is not positive) centred at
the *XY origin* — not at the centre of the bounding box, in which the
circle therefore need not be inscribed — at the mid-height of the box. -/
theorem C7_fallback_circle_geometry (bmin bmax : Vec3) :
    (∀ (sdf : Vec3 → ℝ) (samples : List Vec3)
        (km : ℤ → List Vec3 → Except Unit (List Vec3))
        (minr : List Vec3 → Option (List Vec3)) (count : ℤ),
      ((filteredCandidates sdf bmin bmax samples count).length : ℤ)
          < count * 2 →
        generate_points sdf bmin bmax samples km minr count
          = Except.ok (fallback_circle_points bmin bmax count.toNat)) ∧
      (∀ count : ℕ, (fallback_circle_points bmin bmax count).length = count) ∧
      0 < circleRadius bmin bmax ∧
      ∀ (count k : ℕ), k < count →
        (fallback_circle_points bmin bmax count).getD k 0
            = ⟨circleRadius bmin bmax * Real.cos (2 * Real.pi * k / count),
               circleRadius bmin bmax * Real.sin (2 * Real.pi * k / count),
               (bmin.z + bmax.z) / 2⟩ ∧
          xyRad ((fallback_circle_points bmin bmax count).getD k 0)
            = circleRadius bmin bmax := by
  have hr : 0 < circleRadius bmin bmax := by
    unfold circleRadius
    split
    · norm_num
    · rename_i hfalse
      exact lt_of_not_le hfalse
  have hpoint : ∀ (count k : ℕ), k < count →
      (fallback_circle_points bmin bmax count).getD k 0
        = ⟨circleRadius bmin bmax * Real.cos (2 * Real.pi * k / count),
           circleRadius bmin bmax * Real.sin (2 * Real.pi * k / count),
           (bmin.z + bmax.z) / 2⟩ := by
    intro count k hk
    unfold fallback_circle_points
    exact getD_map_range count _ 0 k hk
  refine ⟨?_, fallback_circle_points_length bmin bmax, hr, ?_⟩
  · intro sdf samples km minr count hlt
    unfold generate_points
    rw [if_pos hlt]
  · intro count k hk
    refine ⟨hpoint count k hk, ?_⟩
    rw [hpoint count k hk]
    show Real.sqrt
        ((circleRadius bmin bmax * Real.cos (2 * Real.pi * k / count)) ^ 2 +
          (circleRadius bmin bmax * Real.sin (2 * Real.pi * k / count)) ^ 2)
        = circleRadius bmin bmax
    have hsum : (circleRadius bmin bmax *
          Real.cos (2 * Real.pi * k / count)) ^ 2 +
        (circleRadius bmin bmax * Real.sin (2 * Real.pi * k / count)) ^ 2
        = circleRadius bmin bmax ^ 2 := by
      rw [mul_pow, mul_pow, ← mul_add, Real.cos_sq_add_sin_sq, mul_one]
    rw [hsum]
    exact Real.sqrt_sq (le_of_lt hr)

/-- Witness for C7's amended theorem: empty candidate set triggers the
fallback, and point 0 of a 2-point circle lies at radial distance
`circleRadius` from the XY origin. -/
theorem C7_fallback_circle_geometry_witness :
    generate_points (fun _ => (0 : ℝ)) ⟨0, 0, 0⟩ ⟨2, 1, 0⟩ []
        (fun _ _ => Except.error ()) (fun _ => none) 2
        = Except.ok (fallback_circle_points ⟨0, 0, 0⟩ ⟨2, 1, 0⟩ (2 : ℤ).toNat) ∧
      xyRad ((fallback_circle_points ⟨0, 0, 0⟩ ⟨2, 1, 0⟩ 2).getD 0 0)
        = circleRadius ⟨0, 0, 0⟩ ⟨2, 1, 0⟩ := by
  have h := C7_fallback_circle_geometry ⟨0, 0, 0⟩ ⟨2, 1, 0⟩
  refine ⟨h.1 _ [] _ _ 2 ?_, (h.2.2.2 2 0 (by decide)).2⟩
  norm_num [filteredCandidates]

/-- C7 counterexample: bounds `[0,2] × [0,1] × {0}`.  The fallback circle
has radius `max(2,1)/2 = 1` about the XY *origin*, so its point at angle π
is `(-1, 0, 0)`, whose x-coordinate lies outside the box — the returned
points are not on a circle inscribed in the estimated bounding box. -/
theorem C7_counterexample :
    ((fallback_circle_points ⟨0, 0, 0⟩ ⟨2, 1, 0⟩ 2).getD 1 0).x = -1 ∧
      ¬ ((⟨0, 0, 0⟩ : Vec3).x ≤
          ((fallback_circle_points ⟨0, 0, 0⟩ ⟨2, 1, 0⟩ 2).getD 1 0).x) := by
  have hrad : circleRadius ⟨0, 0, 0⟩ ⟨2, 1, 0⟩ = 1 := by
    unfold circleRadius
    rw [if_neg]
    · show max ((2 : ℝ) - 0) ((1 : ℝ) - 0) / 2 = 1
      rw [max_eq_left (by norm_num : (1 : ℝ) - 0 ≤ 2 - 0)]
      norm_num
    · show ¬ (max ((2 : ℝ) - 0) ((1 : ℝ) - 0) / 2 ≤ 0)
      rw [max_eq_left (by norm_num : (1 : ℝ) - 0 ≤ 2 - 0)]
      norm_num
  have hang : 2 * Real.pi * ((1 : ℕ) : ℝ) / ((2 : ℕ) : ℝ) = Real.pi := by
    push_cast
    ring
  have hp : (fallback_circle_points ⟨0, 0, 0⟩ ⟨2, 1, 0⟩ 2).getD 1 0
      = ⟨-1, 0, 0⟩ := by
    unfold fallback_circle_points
    rw [getD_map_range 2 _ 0 1 (by norm_num)]
    rw [hrad, hang, Real.cos_pi, Real.sin_pi]
    exact Vec3.ext' (by norm_num) (by norm_num) (by norm_num)
  rw [hp]
  constructor
  · rfl
  · show ¬ ((0 : ℝ) ≤ -1)
    norm_num

end Swarm

end
